import Mathlib

/-!
Verification development for the crthesizer polyphonic envelope-synthesis
engine (`src/main.rs`, with the earlier variant `src/keyboard-clicking.rs`
embedded in the namespace `KC`).

Modelling conventions:
* `f32` arithmetic is embedded as exact rational arithmetic (`ℚ`); the
  floating-point literals of the source (`0.5`, `0.01`, `0.8`, `0.2`, the
  note frequencies, and `std::f32::consts::PI`) become the corresponding
  rationals (`piQ` is the exact value of the `f32` constant `PI`).
* The transcendental `f32::sin` is not part of the repository; the per-sample
  waveform evaluation is abstracted as a function parameter `sin : ℚ → ℚ`
  supplied to the mixing step.
* The `HashMap<Keycode, Oscillator>` voice bank is embedded as an association
  list `List (Keycode × Oscillator)`; the engine only ever inserts a key that
  is absent, so keys stay unique, and no claim depends on iteration order
  (sums are over `ℚ`, where addition is commutative).
* The mpsc command channel is embedded by passing the list of commands that
  are pending at the start of a sample pull to `Synthesizer.next`.
-/

namespace Crt

/-- The exact rational value of the `f32` constant `std::f32::consts::PI`
(bit pattern 0x40490FDB). -/
def piQ : ℚ := 13176795 / 4194304

inductive Waveform where
  | Sine
  deriving DecidableEq, Repr

/-- Keycodes: the thirteen mapped keys of `frequency_from_key`, plus a
constructor standing for every other (unmapped) key, matching the
catch-all `_ => None` arm of the source. -/
inductive Keycode where
  | A | W | S | E | D | F | T | G | Y | H | U | J | K
  | Other (n : ℕ)
  deriving DecidableEq, Repr

/-- Embeds `frequency_from_key` of `src/main.rs` (identical in
`src/keyboard-clicking.rs`); the `f32` literals become exact rationals. -/
def frequency_from_key : Keycode → Option ℚ
  | .A => some (26163 / 100)
  | .W => some (27718 / 100)
  | .S => some (29366 / 100)
  | .E => some (31113 / 100)
  | .D => some (32963 / 100)
  | .F => some (34923 / 100)
  | .T => some (36999 / 100)
  | .G => some (39200 / 100)
  | .Y => some (41530 / 100)
  | .H => some (44000 / 100)
  | .U => some (46616 / 100)
  | .J => some (49388 / 100)
  | .K => some (52325 / 100)
  | _ => none

inductive SynthCommand where
  | NoteOn (key : Keycode)
  | NoteOff (key : Keycode)

/-- Embeds the `Oscillator` struct of `src/main.rs`. -/
@[ext]
structure Oscillator where
  phase : ℚ
  phase_increment : ℚ
  waveform : Waveform
  sample_rate : ℕ
  is_releasing : Bool
  release_phase : ℚ
  release_rate : ℚ
  attack_phase : ℚ
  attack_rate : ℚ
  deriving DecidableEq, Repr

/-- Embeds `Oscillator::new`. -/
def Oscillator.new (frequency : ℚ) (waveform : Waveform) (sample_rate : ℕ) : Oscillator where
  phase := 0
  phase_increment := 2 * piQ * frequency / (sample_rate : ℚ)
  waveform := waveform
  sample_rate := sample_rate
  is_releasing := false
  release_phase := 1
  release_rate := 1 / ((sample_rate : ℚ) * (1 / 2))
  attack_phase := 0
  attack_rate := 1 / ((sample_rate : ℚ) * (1 / 100))

/-- Embeds `Oscillator::reset_phase`. -/
def Oscillator.reset_phase (o : Oscillator) : Oscillator :=
  { o with phase := 0 }

/-- Embeds `Oscillator::set_frequency`. -/
def Oscillator.set_frequency (o : Oscillator) (frequency : ℚ) : Oscillator :=
  { o with phase_increment := 2 * piQ * frequency / (o.sample_rate : ℚ) }

/-- Embeds `Oscillator::restart`. -/
def Oscillator.restart (o : Oscillator) (frequency : ℚ) : Oscillator :=
  { (o.set_frequency frequency).reset_phase with
      is_releasing := false
      attack_phase := 0 }

/-- Embeds `Oscillator::start_release`. -/
def Oscillator.start_release (o : Oscillator) : Oscillator :=
  if ¬ o.is_releasing ∧ o.attack_phase ≥ 1 then
    { o with is_releasing := true, release_phase := 1 }
  else
    { o with is_releasing := true, release_phase := o.attack_phase }

/-- Embeds `Oscillator::apply_envelope`: returns the enveloped sample together
with the mutated oscillator state. -/
def Oscillator.apply_envelope (o : Oscillator) (sample : ℚ) : ℚ × Oscillator :=
  if o.attack_phase < 1 then
    let ap := o.attack_phase + o.attack_rate
    if ap > 1 then (sample * 1, { o with attack_phase := 1 })
    else (sample * ap, { o with attack_phase := ap })
  else if o.is_releasing then
    let rp := o.release_phase - o.release_rate
    if rp ≤ 0 then (0, { o with release_phase := 0 })
    else (sample * rp, { o with release_phase := rp })
  else (sample, o)

/-- The envelope-state part of one sample tick: `apply_envelope` with the
audio sample ignored (the state update of `apply_envelope` does not depend
on the sample argument). -/
def Oscillator.envTick (o : Oscillator) : Oscillator :=
  (o.apply_envelope 0).2

/-- The amplitude multiplier emitted at one tick: `apply_envelope` applied to
the unit sample returns exactly the post-update envelope gain. -/
def Oscillator.emittedLevel (o : Oscillator) : ℚ :=
  (o.apply_envelope 1).1

/-- Iterated envelope ticks. -/
def Oscillator.envTickN (o : Oscillator) : ℕ → Oscillator
  | 0 => o
  | n + 1 => (o.envTick).envTickN n

/-- Embeds the phase advance of the per-sample loop of
`<Synthesizer as Iterator>::next` (lines 183-186 of `src/main.rs`). -/
def advancePhase (o : Oscillator) : Oscillator :=
  let p := o.phase + o.phase_increment
  if p > 2 * piQ then { o with phase := p - 2 * piQ } else { o with phase := p }

/-- Embeds the `Synthesizer` struct (the command receiver is modelled by
passing pending commands to `Synthesizer.next`). -/
@[ext]
structure Synthesizer where
  oscillators : List (Keycode × Oscillator)
  sample_rate : ℕ

/-- Embeds `Synthesizer::new`. -/
def Synthesizer.new (sample_rate : ℕ) : Synthesizer where
  oscillators := []
  sample_rate := sample_rate

/-- Association-list counterpart of `HashMap::get`. -/
def bankLookup (key : Keycode) (bank : List (Keycode × Oscillator)) : Option Oscillator :=
  (bank.find? (fun p => p.1 == key)).map Prod.snd

/-- Embeds `Synthesizer::note_on`. -/
def Synthesizer.note_on (s : Synthesizer) (key : Keycode) (waveform : Waveform) : Synthesizer :=
  match frequency_from_key key with
  | some freq =>
    if (bankLookup key s.oscillators).isSome then
      { s with oscillators :=
          s.oscillators.map (fun p => if p.1 == key then (p.1, p.2.restart freq) else p) }
    else
      { s with oscillators :=
          s.oscillators ++ [(key, Oscillator.new freq waveform s.sample_rate)] }
  | none => s

/-- Embeds `Synthesizer::note_off`. -/
def Synthesizer.note_off (s : Synthesizer) (key : Keycode) : Synthesizer :=
  { s with oscillators :=
      s.oscillators.map (fun p => if p.1 == key then (p.1, p.2.start_release) else p) }

/-- Embeds `Synthesizer::process_commands`, draining the given pending
command list in FIFO order. -/
def Synthesizer.process_commands (s : Synthesizer) (events : List SynthCommand) : Synthesizer :=
  events.foldl
    (fun s c =>
      match c with
      | .NoteOn key => s.note_on key .Sine
      | .NoteOff key => s.note_off key)
    s

/-- Embeds the waveform evaluation `osc.phase.sin()` of the mixing loop,
with `sin` abstracted. -/
def rawSample (sin : ℚ → ℚ) (o : Oscillator) : ℚ :=
  match o.waveform with
  | .Sine => sin o.phase

/-- The enveloped sample a voice contributes at one pull
(`osc.apply_envelope(osc_sample)` in the mixing loop). -/
def envOut (sin : ℚ → ℚ) (o : Oscillator) : ℚ :=
  (o.apply_envelope (rawSample sin o)).1

/-- The oscillator state right after its envelope has been applied at a pull,
before the phase advance. -/
def tickedOsc (sin : ℚ → ℚ) (o : Oscillator) : Oscillator :=
  (o.apply_envelope (rawSample sin o)).2

/-- The removal condition of the mixing loop
(`osc.is_releasing && osc.release_phase <= 0.0`, checked after the envelope
has been applied). -/
def oscFinished (sin : ℚ → ℚ) (o : Oscillator) : Bool :=
  (tickedOsc sin o).is_releasing && decide ((tickedOsc sin o).release_phase ≤ 0)

/-- One iteration of the mixing loop of `<Synthesizer as Iterator>::next`:
the accumulator carries `(sample_sum, active_oscillators,
finished_oscillators, updated bank)`. -/
def mixEntry (sin : ℚ → ℚ) (acc : ℚ × ℕ × List Keycode × List (Keycode × Oscillator))
    (kv : Keycode × Oscillator) : ℚ × ℕ × List Keycode × List (Keycode × Oscillator) :=
  match acc, kv with
  | (sum, count, fin, bank), (key, osc) =>
    let r := osc.apply_envelope (rawSample sin osc)
    let osc2 := advancePhase r.2
    if r.2.is_releasing && decide (r.2.release_phase ≤ 0) then
      (sum, count, fin ++ [key], bank ++ [(key, osc2)])
    else
      (sum + r.1, count + 1, fin, bank ++ [(key, osc2)])

/-- Embeds the removal pass over `finished_oscillators`
(`self.oscillators.remove(&key)` for each finished key). -/
def removeKeys (fin : List Keycode) (bank : List (Keycode × Oscillator)) :
    List (Keycode × Oscillator) :=
  fin.foldl (fun b k => b.filter (fun p => ! (p.1 == k))) bank

/-- Rust `f32::clamp`. -/
def clampQ (x lo hi : ℚ) : ℚ :=
  if x < lo then lo else if x > hi then hi else x

/-- Embeds `<Synthesizer as Iterator>::next`: drain pending commands, run the
mixing loop over every voice, remove finished voices, and produce the output
sample together with the next engine state. -/
def Synthesizer.next (sin : ℚ → ℚ) (events : List SynthCommand) (s : Synthesizer) :
    ℚ × Synthesizer :=
  let s1 := s.process_commands events
  let acc := s1.oscillators.foldl (mixEntry sin) (0, 0, [], [])
  let s2 : Synthesizer := { s1 with oscillators := removeKeys acc.2.2.1 acc.2.2.2 }
  if 0 < acc.2.1 then
    (clampQ (acc.1 / (acc.2.1 : ℚ) * (4 / 5)) (-1) 1, s2)
  else
    (0, s2)

/-- The voices of a bank that remain active at a pull (spec side: the voices
whose release has not completed at this tick). -/
def activeVoices (sin : ℚ → ℚ) (l : List (Keycode × Oscillator)) :
    List (Keycode × Oscillator) :=
  l.filter (fun kv => ! oscFinished sin kv.2)

/-- Spec-side active voice count of a bank at a pull. -/
def specActiveCount (sin : ℚ → ℚ) (l : List (Keycode × Oscillator)) : ℕ :=
  (activeVoices sin l).length

/-- Spec-side sum of the enveloped samples of the active voices at a pull. -/
def specActiveSum (sin : ℚ → ℚ) (l : List (Keycode × Oscillator)) : ℚ :=
  ((activeVoices sin l).map (fun kv => envOut sin kv.2)).sum

/-- The keys collected in `finished_oscillators` during the mixing loop. -/
def finishedKeys (sin : ℚ → ℚ) (l : List (Keycode × Oscillator)) : List Keycode :=
  (l.filter (fun kv => oscFinished sin kv.2)).map Prod.fst

/-- The envelope level of a voice in the sense of the spec's envelope state
machine: `release_phase` while releasing, `attack_phase` while the attack is
still in progress, and `1` in the sustain stage. -/
def Oscillator.level (o : Oscillator) : ℚ :=
  if o.is_releasing then o.release_phase
  else if o.attack_phase < 1 then o.attack_phase
  else 1

/-- The voice bank holds at most one voice per key (always true of the
`HashMap` bank of the source). -/
def NodupKeys (s : Synthesizer) : Prop :=
  (s.oscillators.map Prod.fst).Nodup

/-- The envelope invariant of the spec: both envelope phases stay within
`[0, 1]` (and the rates are nonnegative, as they are for every oscillator the
engine constructs). -/
def Oscillator.envInv (o : Oscillator) : Prop :=
  0 ≤ o.attack_phase ∧ o.attack_phase ≤ 1 ∧
  0 ≤ o.release_phase ∧ o.release_phase ≤ 1 ∧
  0 ≤ o.attack_rate ∧ 0 ≤ o.release_rate

instance (o : Oscillator) : Decidable o.envInv := by
  unfold Oscillator.envInv
  infer_instance

/-- The voice created by `note_on` for key `A` (261.63 Hz) at 44100 Hz, the
sample rate used by `main`. -/
def oscA : Oscillator :=
  Oscillator.new (26163 / 100) .Sine 44100

/-- The engine state after one sample pull with no pending events. -/
def pullState (sin : ℚ → ℚ) (s : Synthesizer) : Synthesizer :=
  (s.next sin []).2

/-- The engine state after `n` sample pulls with no pending events. -/
def pullN (sin : ℚ → ℚ) : ℕ → Synthesizer → Synthesizer
  | 0, s => s
  | n + 1, s => pullN sin n (pullState sin s)

/-! ## The earlier engine variant `src/keyboard-clicking.rs` -/

namespace KC

/-- Embeds the envelope-free `Oscillator` struct of
`src/keyboard-clicking.rs`. -/
structure Oscillator where
  phase : ℚ
  phase_increment : ℚ
  waveform : Waveform
  sample_rate : ℕ
  deriving DecidableEq, Repr

/-- Embeds `Oscillator::new` of the variant. -/
def Oscillator.new (frequency : ℚ) (waveform : Waveform) (sample_rate : ℕ) : Oscillator where
  phase := 0
  phase_increment := 2 * piQ * frequency / (sample_rate : ℚ)
  waveform := waveform
  sample_rate := sample_rate

/-- Embeds the `Synthesizer` struct of the variant. -/
structure Synthesizer where
  oscillators : List (Keycode × Oscillator)
  sample_rate : ℕ

/-- Association-list counterpart of `HashMap::get` for the variant's bank. -/
def bankLookup (key : Keycode) (bank : List (Keycode × Oscillator)) : Option Oscillator :=
  (bank.find? (fun p => p.1 == key)).map Prod.snd

/-- Embeds `Synthesizer::note_on` of the variant: an already-present key is
left untouched, otherwise a mapped key inserts a fresh oscillator. -/
def Synthesizer.note_on (s : Synthesizer) (key : Keycode) (waveform : Waveform) : Synthesizer :=
  if (bankLookup key s.oscillators).isSome then s
  else
    match frequency_from_key key with
    | some freq =>
      { s with oscillators :=
          s.oscillators ++ [(key, Oscillator.new freq waveform s.sample_rate)] }
    | none => s

/-- Embeds `Synthesizer::note_off` of the variant: the oscillator is removed
from the bank unconditionally (`HashMap::remove`). -/
def Synthesizer.note_off (s : Synthesizer) (key : Keycode) : Synthesizer :=
  { s with oscillators := s.oscillators.filter (fun p => ! (p.1 == key)) }

/-- Embeds the variant's waveform evaluation. -/
def rawSample (sin : ℚ → ℚ) (o : Oscillator) : ℚ :=
  match o.waveform with
  | .Sine => sin o.phase

/-- Embeds the variant's phase advance. -/
def advancePhase (o : Oscillator) : Oscillator :=
  let p := o.phase + o.phase_increment
  if p > 2 * piQ then { o with phase := p - 2 * piQ } else { o with phase := p }

/-- One iteration of the variant's mixing loop: every oscillator contributes
its raw (un-enveloped) sample. -/
def mixEntry (sin : ℚ → ℚ) (acc : ℚ × ℕ × List (Keycode × Oscillator))
    (kv : Keycode × Oscillator) : ℚ × ℕ × List (Keycode × Oscillator) :=
  match acc, kv with
  | (sum, count, bank), (key, osc) =>
    (sum + rawSample sin osc, count + 1, bank ++ [(key, advancePhase osc)])

/-- Embeds `<Synthesizer as Iterator>::next` of the variant: mix every
oscillator at full amplitude, divide by the count, apply headroom `0.2`, and
soft-clip with `min(1.0).max(-1.0)`. -/
def Synthesizer.next (sin : ℚ → ℚ) (events : List SynthCommand) (s : Synthesizer) :
    ℚ × Synthesizer :=
  let s1 := events.foldl
    (fun s c =>
      match c with
      | SynthCommand.NoteOn key => s.note_on key .Sine
      | SynthCommand.NoteOff key => s.note_off key)
    s
  let acc := s1.oscillators.foldl (mixEntry sin) (0, 0, [])
  let s2 : Synthesizer := { s1 with oscillators := acc.2.2 }
  if 0 < acc.2.1 then
    (max (min (acc.1 / (acc.2.1 : ℚ) * (1 / 5)) 1) (-1), s2)
  else
    (0, s2)

end KC

/-! ## Basic lemmas about the envelope state machine -/

theorem apply_envelope_snd (o : Oscillator) (x : ℚ) :
    (o.apply_envelope x).2 = o.envTick := by
  simp only [Oscillator.envTick, Oscillator.apply_envelope]
  split_ifs <;> rfl

theorem tickedOsc_eq_envTick (sin : ℚ → ℚ) (o : Oscillator) :
    tickedOsc sin o = o.envTick :=
  apply_envelope_snd o _

@[simp] theorem advancePhase_attack_phase (o : Oscillator) :
    (advancePhase o).attack_phase = o.attack_phase := by
  simp only [advancePhase]; split_ifs <;> rfl

@[simp] theorem advancePhase_attack_rate (o : Oscillator) :
    (advancePhase o).attack_rate = o.attack_rate := by
  simp only [advancePhase]; split_ifs <;> rfl

@[simp] theorem advancePhase_is_releasing (o : Oscillator) :
    (advancePhase o).is_releasing = o.is_releasing := by
  simp only [advancePhase]; split_ifs <;> rfl

@[simp] theorem advancePhase_release_phase (o : Oscillator) :
    (advancePhase o).release_phase = o.release_phase := by
  simp only [advancePhase]; split_ifs <;> rfl

@[simp] theorem advancePhase_release_rate (o : Oscillator) :
    (advancePhase o).release_rate = o.release_rate := by
  simp only [advancePhase]; split_ifs <;> rfl

@[simp] theorem envTick_phase (o : Oscillator) : o.envTick.phase = o.phase := by
  simp only [Oscillator.envTick, Oscillator.apply_envelope]
  split_ifs <;> rfl

@[simp] theorem envTick_phase_increment (o : Oscillator) :
    o.envTick.phase_increment = o.phase_increment := by
  simp only [Oscillator.envTick, Oscillator.apply_envelope]
  split_ifs <;> rfl

@[simp] theorem envTick_is_releasing (o : Oscillator) :
    o.envTick.is_releasing = o.is_releasing := by
  simp only [Oscillator.envTick, Oscillator.apply_envelope]
  split_ifs <;> rfl

@[simp] theorem envTick_attack_rate (o : Oscillator) :
    o.envTick.attack_rate = o.attack_rate := by
  simp only [Oscillator.envTick, Oscillator.apply_envelope]
  split_ifs <;> rfl

@[simp] theorem envTick_release_rate (o : Oscillator) :
    o.envTick.release_rate = o.release_rate := by
  simp only [Oscillator.envTick, Oscillator.apply_envelope]
  split_ifs <;> rfl

theorem envTick_of_attack (o : Oscillator) (h1 : o.attack_phase < 1)
    (h2 : ¬ o.attack_phase + o.attack_rate > 1) :
    o.envTick = { o with attack_phase := o.attack_phase + o.attack_rate } := by
  simp only [Oscillator.envTick, Oscillator.apply_envelope]
  rw [if_pos h1, if_neg h2]

theorem envTick_of_attack_clamp (o : Oscillator) (h1 : o.attack_phase < 1)
    (h2 : o.attack_phase + o.attack_rate > 1) :
    o.envTick = { o with attack_phase := 1 } := by
  simp only [Oscillator.envTick, Oscillator.apply_envelope]
  rw [if_pos h1, if_pos h2]

theorem envTick_of_release (o : Oscillator) (h1 : ¬ o.attack_phase < 1)
    (hrel : o.is_releasing = true) (h3 : ¬ o.release_phase - o.release_rate ≤ 0) :
    o.envTick = { o with release_phase := o.release_phase - o.release_rate } := by
  simp only [Oscillator.envTick, Oscillator.apply_envelope]
  rw [if_neg h1, if_pos (by simp [hrel]), if_neg h3]

theorem envTick_of_release_done (o : Oscillator) (h1 : ¬ o.attack_phase < 1)
    (hrel : o.is_releasing = true) (h3 : o.release_phase - o.release_rate ≤ 0) :
    o.envTick = { o with release_phase := 0 } := by
  simp only [Oscillator.envTick, Oscillator.apply_envelope]
  rw [if_neg h1, if_pos (by simp [hrel]), if_pos h3]

theorem envTick_of_sustain (o : Oscillator) (h1 : ¬ o.attack_phase < 1)
    (hrel : o.is_releasing = false) : o.envTick = o := by
  simp only [Oscillator.envTick, Oscillator.apply_envelope]
  rw [if_neg h1, if_neg (by simp [hrel])]

theorem emittedLevel_of_attack (o : Oscillator) (h1 : o.attack_phase < 1)
    (h2 : ¬ o.attack_phase + o.attack_rate > 1) :
    o.emittedLevel = o.attack_phase + o.attack_rate := by
  simp only [Oscillator.emittedLevel, Oscillator.apply_envelope]
  rw [if_pos h1, if_neg h2, one_mul]

theorem emittedLevel_of_attack_clamp (o : Oscillator) (h1 : o.attack_phase < 1)
    (h2 : o.attack_phase + o.attack_rate > 1) : o.emittedLevel = 1 := by
  simp only [Oscillator.emittedLevel, Oscillator.apply_envelope]
  rw [if_pos h1, if_pos h2, one_mul]

theorem emittedLevel_of_release (o : Oscillator) (h1 : ¬ o.attack_phase < 1)
    (hrel : o.is_releasing = true) (h3 : ¬ o.release_phase - o.release_rate ≤ 0) :
    o.emittedLevel = o.release_phase - o.release_rate := by
  simp only [Oscillator.emittedLevel, Oscillator.apply_envelope]
  rw [if_neg h1, if_pos (by simp [hrel]), if_neg h3, one_mul]

theorem emittedLevel_of_release_done (o : Oscillator) (h1 : ¬ o.attack_phase < 1)
    (hrel : o.is_releasing = true) (h3 : o.release_phase - o.release_rate ≤ 0) :
    o.emittedLevel = 0 := by
  simp only [Oscillator.emittedLevel, Oscillator.apply_envelope]
  rw [if_neg h1, if_pos (by simp [hrel]), if_pos h3]

theorem envTickN_succ (o : Oscillator) (n : ℕ) :
    o.envTickN (n + 1) = (o.envTick).envTickN n := rfl

/-- Closed form of an attack run at the rate `1/441` (44100 Hz, 0.01 s):
starting from level `k/441`, `n` further ticks reach level `(k+n)/441`, as
long as the run stays within the attack. -/
theorem envTickN_attack_run (o : Oscillator) (n k : ℕ)
    (hrate : o.attack_rate = 1 / 441) (hstart : o.attack_phase = (k : ℚ) / 441)
    (hle : k + n ≤ 441) :
    o.envTickN n = { o with attack_phase := ((k + n : ℕ) : ℚ) / 441 } := by
  induction n generalizing o k with
  | zero =>
    rw [Nat.add_zero, ← hstart]
    rfl
  | succ n ih =>
    have hk : k < 441 := by omega
    have h1 : o.attack_phase < 1 := by
      rw [hstart, div_lt_one (by norm_num)]
      exact_mod_cast hk
    have h2 : ¬ o.attack_phase + o.attack_rate > 1 := by
      rw [hstart, hrate, not_lt, div_add_div_same, div_le_one (by norm_num)]
      have : (k : ℚ) + 1 ≤ 441 := by exact_mod_cast Nat.succ_le_of_lt hk
      linarith
    rw [envTickN_succ, envTick_of_attack o h1 h2]
    have hstep : o.attack_phase + o.attack_rate = ((k + 1 : ℕ) : ℚ) / 441 := by
      rw [hstart, hrate, div_add_div_same]
      push_cast
      ring
    rw [ih _ (k + 1) (by exact hrate) (by rw [hstep]) (by omega)]
    rw [show k + 1 + n = k + (n + 1) from by omega]

/-- Closed form of a release run: starting from the current `release_phase`,
`n` ticks subtract `n * release_rate`, as long as the result stays positive
and the attack is complete. -/
theorem envTickN_release_run (o : Oscillator) (n : ℕ)
    (hap : ¬ o.attack_phase < 1) (hrel : o.is_releasing = true)
    (hrr : 0 ≤ o.release_rate)
    (hpos : 0 < o.release_phase - (n : ℚ) * o.release_rate) :
    o.envTickN n = { o with release_phase := o.release_phase - (n : ℚ) * o.release_rate } := by
  induction n generalizing o with
  | zero =>
    have : o.release_phase - ((0 : ℕ) : ℚ) * o.release_rate = o.release_phase := by
      push_cast; ring
    rw [this]
    rfl
  | succ n ih =>
    have hcast : ((n + 1 : ℕ) : ℚ) = (n : ℚ) + 1 := by push_cast; ring
    have hnn : 0 ≤ (n : ℚ) * o.release_rate :=
      mul_nonneg (by positivity) hrr
    have h3 : ¬ o.release_phase - o.release_rate ≤ 0 := by
      rw [hcast] at hpos
      push_neg
      nlinarith
    rw [envTickN_succ, envTick_of_release o hap hrel h3]
    rw [ih _ (by exact hap) (by exact hrel) (by exact hrr)
      (by rw [hcast] at hpos; show (0:ℚ) < o.release_phase - o.release_rate - _; linarith)]
    have : o.release_phase - o.release_rate - (n : ℚ) * o.release_rate
        = o.release_phase - ((n + 1 : ℕ) : ℚ) * o.release_rate := by
      rw [hcast]; ring
    rw [this]

/-! ## The mixing loop -/

theorem mixEntry_eq (sin : ℚ → ℚ) (su : ℚ) (c : ℕ) (f : List Keycode)
    (b : List (Keycode × Oscillator)) (key : Keycode) (osc : Oscillator) :
    mixEntry sin (su, c, f, b) (key, osc) =
      if oscFinished sin osc then
        (su, c, f ++ [key], b ++ [(key, advancePhase (tickedOsc sin osc))])
      else
        (su + envOut sin osc, c + 1, f, b ++ [(key, advancePhase (tickedOsc sin osc))]) := by
  simp only [mixEntry, oscFinished, tickedOsc, envOut]

@[simp] theorem activeVoices_nil (sin : ℚ → ℚ) : activeVoices sin [] = [] := rfl

@[simp] theorem specActiveSum_nil (sin : ℚ → ℚ) : specActiveSum sin [] = 0 := rfl

@[simp] theorem specActiveCount_nil (sin : ℚ → ℚ) : specActiveCount sin [] = 0 := rfl

@[simp] theorem finishedKeys_nil (sin : ℚ → ℚ) : finishedKeys sin [] = [] := rfl

theorem specActiveSum_cons (sin : ℚ → ℚ) (a : Keycode × Oscillator)
    (t : List (Keycode × Oscillator)) :
    specActiveSum sin (a :: t) =
      if oscFinished sin a.2 then specActiveSum sin t
      else envOut sin a.2 + specActiveSum sin t := by
  simp only [specActiveSum, activeVoices, List.filter_cons]
  by_cases hf : oscFinished sin a.2 <;> simp [hf]

theorem specActiveCount_cons (sin : ℚ → ℚ) (a : Keycode × Oscillator)
    (t : List (Keycode × Oscillator)) :
    specActiveCount sin (a :: t) =
      if oscFinished sin a.2 then specActiveCount sin t
      else specActiveCount sin t + 1 := by
  simp only [specActiveCount, activeVoices, List.filter_cons]
  by_cases hf : oscFinished sin a.2 <;> simp [hf]

theorem finishedKeys_cons (sin : ℚ → ℚ) (a : Keycode × Oscillator)
    (t : List (Keycode × Oscillator)) :
    finishedKeys sin (a :: t) =
      if oscFinished sin a.2 then a.1 :: finishedKeys sin t
      else finishedKeys sin t := by
  simp only [finishedKeys, List.filter_cons]
  by_cases hf : oscFinished sin a.2 <;> simp [hf]

/-- The mixing loop of `next` computes the spec-side sum and count of the
active voices, the finished keys, and the pointwise-ticked bank. -/
theorem foldl_mixEntry (sin : ℚ → ℚ) (l : List (Keycode × Oscillator))
    (su : ℚ) (c : ℕ) (f : List Keycode) (b : List (Keycode × Oscillator)) :
    l.foldl (mixEntry sin) (su, c, f, b) =
      (su + specActiveSum sin l, c + specActiveCount sin l,
       f ++ finishedKeys sin l,
       b ++ l.map (fun kv => (kv.1, advancePhase (tickedOsc sin kv.2)))) := by
  induction l generalizing su c f b with
  | nil => simp
  | cons a t ih =>
    obtain ⟨ak, ao⟩ := a
    rw [List.foldl_cons, mixEntry_eq]
    by_cases hf : oscFinished sin ao
    · rw [if_pos hf, ih]
      simp [specActiveSum_cons, specActiveCount_cons, finishedKeys_cons, hf]
    · rw [if_neg hf, ih]
      simp [specActiveSum_cons, specActiveCount_cons, finishedKeys_cons, hf,
        add_assoc, Nat.add_comm 1]

/-- Unfolds one sample pull of the engine into draining, the spec-side mixing
formula, and the removal of finished voices. -/
theorem next_eq (sin : ℚ → ℚ) (events : List SynthCommand) (s : Synthesizer) :
    s.next sin events =
      ((if 0 < specActiveCount sin (s.process_commands events).oscillators then
          clampQ (specActiveSum sin (s.process_commands events).oscillators /
              (specActiveCount sin (s.process_commands events).oscillators : ℚ) * (4 / 5))
            (-1) 1
        else 0),
       { s.process_commands events with
           oscillators := removeKeys (finishedKeys sin (s.process_commands events).oscillators)
             ((s.process_commands events).oscillators.map
               (fun kv => (kv.1, advancePhase (tickedOsc sin kv.2)))) }) := by
  simp only [Synthesizer.next, foldl_mixEntry, zero_add, Nat.zero_add, List.nil_append]
  split_ifs <;> rfl

/-! ## The voice bank -/

theorem bankLookup_nil (key : Keycode) : bankLookup key [] = none := rfl

theorem bankLookup_cons (key : Keycode) (a : Keycode × Oscillator)
    (t : List (Keycode × Oscillator)) :
    bankLookup key (a :: t) = if a.1 = key then some a.2 else bankLookup key t := by
  by_cases h : a.1 = key
  · rw [if_pos h]
    unfold bankLookup
    rw [List.find?_cons_of_pos _ (by simpa using h)]
    rfl
  · rw [if_neg h]
    unfold bankLookup
    rw [List.find?_cons_of_neg _ (by simpa using h)]

theorem bankLookup_eq_none_of_not_mem (key : Keycode) (l : List (Keycode × Oscillator))
    (h : key ∉ l.map Prod.fst) : bankLookup key l = none := by
  induction l with
  | nil => rfl
  | cons a t ih =>
    rw [bankLookup_cons, if_neg (by simp at h; intro hc; exact h.1 hc.symm)]
    exact ih (by simp at h ⊢; exact h.2)

theorem bankLookup_map_update (key : Keycode) (g : Oscillator → Oscillator)
    (l : List (Keycode × Oscillator)) :
    bankLookup key (l.map (fun p => if p.1 == key then (p.1, g p.2) else p)) =
      (bankLookup key l).map g := by
  induction l with
  | nil => rfl
  | cons a t ih =>
    by_cases h : a.1 = key
    · have hhead : (if a.1 == key then (a.1, g a.2) else a) = (a.1, g a.2) := by
        simp [h]
      rw [List.map_cons, hhead, bankLookup_cons, bankLookup_cons]
      simp [h]
    · have hhead : (if a.1 == key then (a.1, g a.2) else a) = a := by
        simp [h]
      rw [List.map_cons, hhead, bankLookup_cons, bankLookup_cons, if_neg h, if_neg h]
      exact ih

theorem keys_map_update (key : Keycode) (g : Oscillator → Oscillator)
    (l : List (Keycode × Oscillator)) :
    (l.map (fun p => if p.1 == key then (p.1, g p.2) else p)).map Prod.fst =
      l.map Prod.fst := by
  induction l with
  | nil => rfl
  | cons a t ih =>
    simp only [List.map_cons, ih]
    by_cases h : a.1 = key
    · rw [if_pos (by simpa using h)]
    · rw [if_neg (by simpa using h)]

theorem eq_of_mem_nodup_keys {l : List (Keycode × Oscillator)}
    (hnd : (l.map Prod.fst).Nodup) {p q : Keycode × Oscillator}
    (hp : p ∈ l) (hq : q ∈ l) (hkey : p.1 = q.1) : p = q := by
  induction l with
  | nil => cases hp
  | cons a t ih =>
    rw [List.map_cons, List.nodup_cons] at hnd
    rcases List.mem_cons.mp hp with hpa | hpt <;>
      rcases List.mem_cons.mp hq with hqa | hqt
    · rw [hpa, hqa]
    · exact absurd (hkey ▸ (List.mem_map_of_mem Prod.fst hqt)) (hpa ▸ hnd.1)
    · exact absurd (hkey ▸ (List.mem_map_of_mem Prod.fst hpt)) (by rw [hqa]; exact hnd.1)
    · exact ih hnd.2 hpt hqt

theorem removeKeys_eq_filter (fin : List Keycode) (bank : List (Keycode × Oscillator)) :
    removeKeys fin bank = bank.filter (fun p => decide (p.1 ∉ fin)) := by
  induction fin generalizing bank with
  | nil =>
    simp only [removeKeys, List.foldl_nil]
    rw [List.filter_eq_self.mpr]
    intro a _
    simp
  | cons k fin ih =>
    show removeKeys fin (bank.filter fun p => ! (p.1 == k)) = _
    rw [ih, List.filter_filter, List.filter_congr]
    intro p _
    by_cases h1 : p.1 = k <;> by_cases h2 : p.1 ∈ fin <;> simp [h1, h2]

/-- With unique keys, the removal pass deletes exactly the finished entries
of the ticked bank. -/
theorem removal_eq_filter_entries (sin : ℚ → ℚ) (l : List (Keycode × Oscillator))
    (hnd : (l.map Prod.fst).Nodup) :
    removeKeys (finishedKeys sin l)
        (l.map (fun kv => (kv.1, advancePhase (tickedOsc sin kv.2))))
      = (l.filter (fun kv => ! oscFinished sin kv.2)).map
          (fun kv => (kv.1, advancePhase (tickedOsc sin kv.2))) := by
  rw [removeKeys_eq_filter, List.filter_map]
  congr 1
  apply List.filter_congr
  intro kv hkv
  by_cases hf : oscFinished sin kv.2
  · have hmem : kv.1 ∈ finishedKeys sin l :=
      List.mem_map_of_mem Prod.fst (List.mem_filter.mpr ⟨hkv, by simpa using hf⟩)
    simp [Function.comp, hmem, hf]
  · have hmem : kv.1 ∉ finishedKeys sin l := by
      intro hmem
      obtain ⟨kv', hkv', hkey⟩ := List.mem_map.mp hmem
      have h1 := List.mem_filter.mp hkv'
      have heq : kv' = kv := eq_of_mem_nodup_keys hnd h1.1 hkv hkey
      rw [heq] at h1
      exact hf (by simpa using h1.2)
    simp [Function.comp, hmem, hf]

theorem bankLookup_filtered_ticked (sin : ℚ → ℚ) (key : Keycode)
    (l : List (Keycode × Oscillator)) (hnd : (l.map Prod.fst).Nodup) :
    bankLookup key ((l.filter (fun kv => ! oscFinished sin kv.2)).map
        (fun kv => (kv.1, advancePhase (tickedOsc sin kv.2)))) =
      match bankLookup key l with
      | none => none
      | some o => if oscFinished sin o then none
                  else some (advancePhase (tickedOsc sin o)) := by
  induction l with
  | nil => rfl
  | cons a t ih =>
    rw [List.map_cons, List.nodup_cons] at hnd
    by_cases hk : a.1 = key
    · rw [bankLookup_cons, if_pos hk]
      by_cases hf : oscFinished sin a.2
      · have hfilter : (a :: t).filter (fun kv => ! oscFinished sin kv.2)
            = t.filter (fun kv => ! oscFinished sin kv.2) := by
          simp [List.filter_cons, hf]
        rw [hfilter]
        have hnone : bankLookup key ((t.filter (fun kv => ! oscFinished sin kv.2)).map
            (fun kv => (kv.1, advancePhase (tickedOsc sin kv.2)))) = none := by
          apply bankLookup_eq_none_of_not_mem
          intro hmemk
          apply hnd.1
          rw [hk]
          have hsub : ((t.filter (fun kv => ! oscFinished sin kv.2)).map
              (fun kv => (kv.1, advancePhase (tickedOsc sin kv.2)))).map Prod.fst
                = (t.filter (fun kv => ! oscFinished sin kv.2)).map Prod.fst := by
            rw [List.map_map]
            rfl
          rw [hsub] at hmemk
          exact (List.Sublist.map Prod.fst t.filter_sublist).subset hmemk
        rw [hnone]
        simp [hf]
      · have hfilter : (a :: t).filter (fun kv => ! oscFinished sin kv.2)
            = a :: t.filter (fun kv => ! oscFinished sin kv.2) := by
          simp [List.filter_cons, hf]
        rw [hfilter, List.map_cons, bankLookup_cons, if_pos hk]
        simp [hf]
    · rw [bankLookup_cons, if_neg hk]
      by_cases hf : oscFinished sin a.2
      · have hfilter : (a :: t).filter (fun kv => ! oscFinished sin kv.2)
            = t.filter (fun kv => ! oscFinished sin kv.2) := by
          simp [List.filter_cons, hf]
        rw [hfilter]
        exact ih hnd.2
      · have hfilter : (a :: t).filter (fun kv => ! oscFinished sin kv.2)
            = a :: t.filter (fun kv => ! oscFinished sin kv.2) := by
          simp [List.filter_cons, hf]
        rw [hfilter, List.map_cons, bankLookup_cons, if_neg hk]
        exact ih hnd.2

theorem process_commands_nil (s : Synthesizer) : s.process_commands [] = s := rfl

/-- One event-free pull: the surviving voices are exactly the non-finished
ones, each ticked and phase-advanced. -/
theorem pullState_eq (sin : ℚ → ℚ) (s : Synthesizer) :
    pullState sin s =
      { s with
          oscillators := removeKeys (finishedKeys sin s.oscillators)
            (s.oscillators.map (fun kv => (kv.1, advancePhase (tickedOsc sin kv.2)))) } := by
  unfold pullState
  rw [next_eq]
  rfl

/-- Pointwise action of an event-free pull on one key of a bank with unique
keys. -/
theorem bankLookup_pullState (sin : ℚ → ℚ) (s : Synthesizer) (key : Keycode)
    (hnd : NodupKeys s) :
    bankLookup key (pullState sin s).oscillators =
      match bankLookup key s.oscillators with
      | none => none
      | some o => if oscFinished sin o then none
                  else some (advancePhase (tickedOsc sin o)) := by
  rw [pullState_eq]
  show bankLookup key (removeKeys _ _) = _
  rw [removal_eq_filter_entries sin _ hnd, bankLookup_filtered_ticked sin key _ hnd]

theorem nodupKeys_pullState (sin : ℚ → ℚ) (s : Synthesizer) (hnd : NodupKeys s) :
    NodupKeys (pullState sin s) := by
  rw [NodupKeys, pullState_eq]
  show ((removeKeys _ _).map Prod.fst).Nodup
  rw [removal_eq_filter_entries sin _ hnd]
  have hsub : ((s.oscillators.filter (fun kv => ! oscFinished sin kv.2)).map
      (fun kv => (kv.1, advancePhase (tickedOsc sin kv.2)))).map Prod.fst
        = (s.oscillators.filter (fun kv => ! oscFinished sin kv.2)).map Prod.fst := by
    rw [List.map_map]
    rfl
  rw [hsub]
  exact hnd.sublist (List.Sublist.map Prod.fst s.oscillators.filter_sublist)

theorem pullN_zero (sin : ℚ → ℚ) (s : Synthesizer) : pullN sin 0 s = s := rfl

theorem pullN_succ (sin : ℚ → ℚ) (n : ℕ) (s : Synthesizer) :
    pullN sin (n + 1) s = pullN sin n (pullState sin s) := rfl

theorem nodupKeys_pullN (sin : ℚ → ℚ) (n : ℕ) (s : Synthesizer) (hnd : NodupKeys s) :
    NodupKeys (pullN sin n s) := by
  induction n generalizing s with
  | zero => exact hnd
  | succ n ih => exact ih _ (nodupKeys_pullState sin s hnd)

theorem pullState_sample_rate (sin : ℚ → ℚ) (s : Synthesizer) :
    (pullState sin s).sample_rate = s.sample_rate := by
  rw [pullState_eq]

theorem pullState_empty (sin : ℚ → ℚ) (sr : ℕ) :
    pullState sin ⟨[], sr⟩ = ⟨[], sr⟩ := rfl

theorem pullN_empty (sin : ℚ → ℚ) (n : ℕ) (sr : ℕ) :
    pullN sin n ⟨[], sr⟩ = ⟨[], sr⟩ := by
  induction n with
  | zero => rfl
  | succ n ih => rw [pullN_succ, pullState_empty]; exact ih

theorem next_out_empty (sin : ℚ → ℚ) (sr : ℕ) :
    (Synthesizer.next sin [] ⟨[], sr⟩).1 = 0 := rfl

theorem clampQ_bounds (x lo hi : ℚ) (h : lo ≤ hi) :
    lo ≤ clampQ x lo hi ∧ clampQ x lo hi ≤ hi := by
  unfold clampQ
  split_ifs with h1 h2 <;> constructor <;> linarith

/-! ## Claim theorems -/

/-- C3: on every sample pull, after draining the pending events and ticking
every voice, the engine emits `0` when the active voice count is zero, and
otherwise emits
`clamp((sum of enveloped samples of active voices / active_count) * 0.8, -1, 1)`. -/
theorem mix_formula (sin : ℚ → ℚ) (events : List SynthCommand) (s : Synthesizer) :
    (s.next sin events).1 =
      if specActiveCount sin (s.process_commands events).oscillators = 0 then 0
      else
        clampQ (specActiveSum sin (s.process_commands events).oscillators /
            (specActiveCount sin (s.process_commands events).oscillators : ℚ) * (4 / 5))
          (-1) 1 := by
  rw [next_eq]
  dsimp only
  by_cases h : specActiveCount sin (s.process_commands events).oscillators = 0
  · rw [if_neg (by omega), if_pos h]
  · rw [if_pos (Nat.pos_of_ne_zero h), if_neg h]

/-- C4: every sample the engine emits lies within `[-1, 1]`, for every engine
state and any number of active voices. -/
theorem output_bounded (sin : ℚ → ℚ) (events : List SynthCommand) (s : Synthesizer) :
    -1 ≤ (s.next sin events).1 ∧ (s.next sin events).1 ≤ 1 := by
  rw [mix_formula]
  split_ifs with h
  · norm_num
  · exact clampQ_bounds _ _ _ (by norm_num)

/-- C9: `note_on` for a key with no frequency mapping leaves the engine (in
particular the voice bank) completely unchanged. -/
theorem noteOn_unmapped (s : Synthesizer) (key : Keycode) (w : Waveform)
    (h : frequency_from_key key = none) : s.note_on key w = s := by
  unfold Synthesizer.note_on
  rw [h]

/-- C9 witness: a concrete unmapped key. -/
theorem noteOn_unmapped_witness :
    (Synthesizer.new 44100).note_on (.Other 0) .Sine = Synthesizer.new 44100 :=
  noteOn_unmapped (Synthesizer.new 44100) (.Other 0) .Sine rfl

/-- C2 (amended): two consecutive `note_off` releases with no intervening
sample ticks leave the voice in the same state as a single release — hence
the same envelope trajectory — for every voice whose attack level does not
exceed `1`. However `start_release` is not a no-op on an already-releasing
voice (see the counterexample): it resets `release_phase` to `attack_phase`. -/
theorem startRelease_idem (o : Oscillator) (h : o.attack_phase ≤ 1) :
    (o.start_release).start_release = o.start_release ∧
    ∀ n : ℕ, ((o.start_release).start_release).envTickN n = (o.start_release).envTickN n := by
  have key : (o.start_release).start_release = o.start_release := by
    unfold Oscillator.start_release
    by_cases hc : ¬ o.is_releasing = true ∧ o.attack_phase ≥ 1
    · have hap : o.attack_phase = 1 := le_antisymm h hc.2
      rw [if_pos hc, if_neg (by simp)]
      show ({ o with is_releasing := true, release_phase := o.attack_phase } : Oscillator)
          = { o with is_releasing := true, release_phase := 1 }
      rw [hap]
    · rw [if_neg hc, if_neg (by simp)]
  exact ⟨key, fun n => by rw [key]⟩

/-- C2 witness for the amended statement, at a mid-attack voice. -/
theorem startRelease_idem_witness :
    oscA.attack_phase ≤ 1 ∧
    ((oscA.start_release).start_release = oscA.start_release ∧
      ∀ n : ℕ, ((oscA.start_release).start_release).envTickN n
        = (oscA.start_release).envTickN n) :=
  ⟨by norm_num [oscA, Oscillator.new], startRelease_idem oscA (by norm_num [oscA, Oscillator.new])⟩

theorem oscA_attack_rate : oscA.attack_rate = 1 / 441 := by
  norm_num [oscA, Oscillator.new]

theorem oscA_release_rate : oscA.release_rate = 1 / 22050 := by
  norm_num [oscA, Oscillator.new]

theorem oscA_full_attack : oscA.envTickN 441 = { oscA with attack_phase := 1 } := by
  have h := envTickN_attack_run oscA 441 0 oscA_attack_rate
    (by norm_num [oscA, Oscillator.new]) (by norm_num)
  rw [h]
  have hv : ((0 + 441 : ℕ) : ℚ) / 441 = 1 := by norm_num
  rw [hv]

theorem oscA_released : (oscA.envTickN 441).start_release
    = { oscA with attack_phase := 1, is_releasing := true, release_phase := 1 } := by
  rw [oscA_full_attack]
  unfold Oscillator.start_release
  rw [if_pos ⟨by simp [oscA, Oscillator.new], by norm_num⟩]

theorem oscA_released_tick : ((oscA.envTickN 441).start_release).envTick
    = { oscA with
          attack_phase := 1
          is_releasing := true
          release_phase := 22049 / 22050 } := by
  rw [oscA_released]
  rw [envTick_of_release _ (by norm_num) rfl
    (by show ¬ (1 : ℚ) - oscA.release_rate ≤ 0; rw [oscA_release_rate]; norm_num)]
  have hval : (1 : ℚ) - oscA.release_rate = 22049 / 22050 := by
    rw [oscA_release_rate]; norm_num
  show ({ oscA with
            attack_phase := 1
            is_releasing := true
            release_phase := (1 : ℚ) - oscA.release_rate } : Oscillator) = _
  rw [hval]

/-- C2 counterexample: on a voice that is already releasing (fully attacked,
released, then ticked once), `start_release` is not a no-op — it resets
`release_phase` back to `attack_phase` — and the subsequent per-sample
envelope levels differ, so the trajectory is not the same. -/
theorem startRelease_not_noop_cex :
    (((oscA.envTickN 441).start_release).envTick).is_releasing = true ∧
    ((((oscA.envTickN 441).start_release).envTick).start_release).release_phase
      ≠ (((oscA.envTickN 441).start_release).envTick).release_phase ∧
    ((((oscA.envTickN 441).start_release).envTick).start_release).emittedLevel
      ≠ (((oscA.envTickN 441).start_release).envTick).emittedLevel := by
  rw [oscA_released_tick]
  have hsr : ({ oscA with
        attack_phase := 1
        is_releasing := true
        release_phase := 22049 / 22050 } : Oscillator).start_release
      = { oscA with attack_phase := 1, is_releasing := true, release_phase := 1 } := by
    unfold Oscillator.start_release
    rw [if_neg (by simp)]
  refine ⟨rfl, ?_, ?_⟩
  · rw [hsr]
    show (1 : ℚ) ≠ 22049 / 22050
    norm_num
  · rw [hsr]
    rw [emittedLevel_of_release _ (by norm_num) rfl
      (by show ¬ (1 : ℚ) - oscA.release_rate ≤ 0; rw [oscA_release_rate]; norm_num)]
    rw [emittedLevel_of_release _ (by norm_num) rfl
      (by show ¬ (22049 / 22050 : ℚ) - oscA.release_rate ≤ 0; rw [oscA_release_rate]; norm_num)]
    show (1 : ℚ) - oscA.release_rate ≠ 22049 / 22050 - oscA.release_rate
    rw [oscA_release_rate]
    norm_num

theorem envInv_new (f : ℚ) (w : Waveform) (sr : ℕ) : (Oscillator.new f w sr).envInv := by
  unfold Oscillator.envInv Oscillator.new
  refine ⟨le_refl 0, by norm_num, by norm_num, le_refl 1, ?_, ?_⟩
  · exact div_nonneg (by norm_num) (by positivity)
  · exact div_nonneg (by norm_num) (by positivity)

theorem envInv_restart (o : Oscillator) (f : ℚ) (h : o.envInv) : (o.restart f).envInv := by
  obtain ⟨h1, h2, h3, h4, h5, h6⟩ := h
  unfold Oscillator.restart Oscillator.reset_phase Oscillator.set_frequency
  exact ⟨le_refl 0, by norm_num, h3, h4, h5, h6⟩

theorem envInv_start_release (o : Oscillator) (h : o.envInv) : (o.start_release).envInv := by
  obtain ⟨h1, h2, h3, h4, h5, h6⟩ := h
  unfold Oscillator.start_release
  split_ifs
  · exact ⟨h1, h2, by norm_num, le_refl 1, h5, h6⟩
  · exact ⟨h1, h2, h1, h2, h5, h6⟩

theorem envInv_envTick (o : Oscillator) (h : o.envInv) : (o.envTick).envInv := by
  obtain ⟨h1, h2, h3, h4, h5, h6⟩ := h
  unfold Oscillator.envInv
  by_cases c1 : o.attack_phase < 1
  · by_cases c2 : o.attack_phase + o.attack_rate > 1
    · rw [envTick_of_attack_clamp o c1 c2]
      dsimp only
      exact ⟨by norm_num, le_refl 1, h3, h4, h5, h6⟩
    · rw [envTick_of_attack o c1 c2]
      dsimp only
      exact ⟨by linarith, le_of_not_lt c2, h3, h4, h5, h6⟩
  · by_cases crel : o.is_releasing = true
    · by_cases c3 : o.release_phase - o.release_rate ≤ 0
      · rw [envTick_of_release_done o c1 crel c3]
        dsimp only
        exact ⟨h1, h2, le_refl 0, by norm_num, h5, h6⟩
      · rw [envTick_of_release o c1 crel c3]
        dsimp only
        push_neg at c3
        exact ⟨h1, h2, le_of_lt c3, by linarith, h5, h6⟩
    · rw [envTick_of_sustain o c1 (by simpa using crel)]
      exact ⟨h1, h2, h3, h4, h5, h6⟩

theorem level_done (o : Oscillator) (h : o.envInv) (hrel : o.is_releasing = true)
    (hrp : o.release_phase ≤ 0) : o.level = 0 := by
  unfold Oscillator.level
  rw [if_pos hrel]
  exact le_antisymm hrp h.2.2.1

/-- C5: every operation of the engine preserves the envelope invariant — the
attack and release phases (the envelope level while attacking respectively
releasing) stay within `[0, 1]` — and a finished (done) envelope has level
exactly `0`. -/
theorem envelope_invariant (f : ℚ) (w : Waveform) (sr : ℕ) (o : Oscillator)
    (h : o.envInv) :
    (Oscillator.new f w sr).envInv ∧ (o.restart f).envInv ∧
    (o.start_release).envInv ∧ (o.envTick).envInv ∧
    (o.is_releasing = true → o.release_phase ≤ 0 → o.level = 0) :=
  ⟨envInv_new f w sr, envInv_restart o f h, envInv_start_release o h,
   envInv_envTick o h, fun hrel hrp => level_done o h hrel hrp⟩

/-- C5 witness at a concrete voice. -/
theorem envelope_invariant_witness :
    oscA.envInv ∧
    ((Oscillator.new 440 .Sine 44100).envInv ∧ (oscA.restart 440).envInv ∧
      (oscA.start_release).envInv ∧ (oscA.envTick).envInv ∧
      (oscA.is_releasing = true → oscA.release_phase ≤ 0 → oscA.level = 0)) :=
  ⟨by norm_num [oscA, Oscillator.new, Oscillator.envInv],
   envelope_invariant 440 .Sine 44100 oscA
     (by norm_num [oscA, Oscillator.new, Oscillator.envInv])⟩

/-- C7: `note_on` for a note id already present in the bank (necessarily a
mapped key) retriggers the existing voice in place: the bank's key list is
unchanged, and the voice is replaced by `restart`, which resets the attack
level to `0`, clears the releasing flag, resets the phase to `0` and
recomputes the phase increment from the new frequency. -/
theorem noteOn_retrigger (s : Synthesizer) (key : Keycode) (freq : ℚ) (w : Waveform)
    (o : Oscillator) (hmap : frequency_from_key key = some freq)
    (hpres : bankLookup key s.oscillators = some o) :
    ((s.note_on key w).oscillators.map Prod.fst = s.oscillators.map Prod.fst) ∧
    bankLookup key (s.note_on key w).oscillators = some (o.restart freq) ∧
    (o.restart freq).attack_phase = 0 ∧ (o.restart freq).is_releasing = false ∧
    (o.restart freq).phase = 0 ∧
    (o.restart freq).phase_increment = 2 * piQ * freq / (o.sample_rate : ℚ) := by
  simp only [Synthesizer.note_on, hmap]
  rw [if_pos (by rw [hpres]; rfl)]
  refine ⟨keys_map_update key (fun x => x.restart freq) s.oscillators, ?_, rfl, rfl, rfl, rfl⟩
  rw [bankLookup_map_update key (fun x => x.restart freq) s.oscillators, hpres]
  rfl

/-- C7 witness at a concrete one-voice bank. -/
theorem noteOn_retrigger_witness :
    frequency_from_key .A = some (26163 / 100) ∧
    bankLookup .A (Synthesizer.mk [(Keycode.A, oscA)] 44100).oscillators = some oscA ∧
    (((Synthesizer.mk [(Keycode.A, oscA)] 44100).note_on .A .Sine).oscillators.map Prod.fst
        = (Synthesizer.mk [(Keycode.A, oscA)] 44100).oscillators.map Prod.fst) ∧
    bankLookup .A ((Synthesizer.mk [(Keycode.A, oscA)] 44100).note_on .A .Sine).oscillators
      = some (oscA.restart (26163 / 100)) ∧
    (oscA.restart (26163 / 100)).attack_phase = 0 ∧
    (oscA.restart (26163 / 100)).is_releasing = false ∧
    (oscA.restart (26163 / 100)).phase = 0 ∧
    (oscA.restart (26163 / 100)).phase_increment
      = 2 * piQ * (26163 / 100) / ((oscA.sample_rate : ℕ) : ℚ) := by
  refine ⟨rfl, rfl, ?_⟩
  have h := noteOn_retrigger (Synthesizer.mk [(Keycode.A, oscA)] 44100) .A (26163 / 100)
    .Sine oscA rfl rfl
  exact ⟨h.1, h.2.1, h.2.2.1, h.2.2.2.1, h.2.2.2.2.1, h.2.2.2.2.2⟩

/-- C10: in the earlier engine variant (`keyboard-clicking.rs`), `note_off`
removes a present oscillator from the bank immediately (there is no envelope),
so a sounding voice contributes its raw full-amplitude sample to one pull and
nothing at all to the next: with that voice alone, the pull before the
note-off emits `clamp(sin(phase) * 0.2)` and the pull after it emits `0`. -/
theorem kc_noteOff_removes (s : KC.Synthesizer) (key : Keycode) (o : KC.Oscillator)
    (hpres : KC.bankLookup key s.oscillators = some o) :
    KC.bankLookup key (s.note_off key).oscillators = none ∧
    (∀ sin : ℚ → ℚ, ∀ sr : ℕ,
      (KC.Synthesizer.next sin [] (KC.Synthesizer.mk [(key, o)] sr)).1
        = max (min (sin o.phase * (1 / 5)) 1) (-1) ∧
      (KC.Synthesizer.next sin []
          (KC.Synthesizer.note_off (KC.Synthesizer.mk [(key, o)] sr) key)).1 = 0) := by
  constructor
  · show ((List.filter _ s.oscillators).find? _).map Prod.snd = none
    rw [List.find?_eq_none.mpr]
    · rfl
    · intro x hx
      have := (List.mem_filter.mp hx).2
      simpa using this
  · intro sin sr
    obtain ⟨ophase, oinc, ow, osr⟩ := o
    cases ow
    constructor
    · show (if 0 < 1 then
          max (min ((0 + sin ophase) / ((1 : ℕ) : ℚ) * (1 / 5)) 1) (-1) else 0) = _
      norm_num
    · simp [KC.Synthesizer.note_off, KC.Synthesizer.next]

/-- C10 witness at a concrete bank. -/
theorem kc_noteOff_removes_witness :
    KC.bankLookup .A (KC.Synthesizer.mk [(Keycode.A, KC.Oscillator.new (26163 / 100) .Sine 44100)]
        44100).oscillators = some (KC.Oscillator.new (26163 / 100) .Sine 44100) ∧
    (KC.bankLookup .A ((KC.Synthesizer.mk [(Keycode.A, KC.Oscillator.new (26163 / 100) .Sine 44100)]
        44100).note_off .A).oscillators = none ∧
      (∀ sin : ℚ → ℚ, ∀ sr : ℕ,
        (KC.Synthesizer.next sin []
            (KC.Synthesizer.mk [(Keycode.A, KC.Oscillator.new (26163 / 100) .Sine 44100)] sr)).1
          = max (min (sin (KC.Oscillator.new (26163 / 100) .Sine 44100).phase * (1 / 5)) 1) (-1) ∧
        (KC.Synthesizer.next sin []
            (KC.Synthesizer.note_off
              (KC.Synthesizer.mk [(Keycode.A, KC.Oscillator.new (26163 / 100) .Sine 44100)] sr)
              .A)).1 = 0)) :=
  ⟨rfl, kc_noteOff_removes
    (KC.Synthesizer.mk [(Keycode.A, KC.Oscillator.new (26163 / 100) .Sine 44100)] 44100)
    .A (KC.Oscillator.new (26163 / 100) .Sine 44100) rfl⟩

theorem oscFinished_eq_false (sin : ℚ → ℚ) (o : Oscillator)
    (h : ¬ ((o.envTick).is_releasing = true ∧ (o.envTick).release_phase ≤ 0)) :
    oscFinished sin o = false := by
  rw [oscFinished, tickedOsc_eq_envTick]
  by_cases hr : (o.envTick).is_releasing = true
  · have hnp : ¬ (o.envTick).release_phase ≤ 0 := fun hp => h ⟨hr, hp⟩
    simp [hr, hnp]
  · simp [Bool.not_eq_true] at hr
    simp [hr]

theorem oscFinished_eq_true (sin : ℚ → ℚ) (o : Oscillator)
    (h : (o.envTick).is_releasing = true ∧ (o.envTick).release_phase ≤ 0) :
    oscFinished sin o = true := by
  rw [oscFinished, tickedOsc_eq_envTick]
  have h1 := h.1
  rw [envTick_is_releasing] at h1
  simp [h1, h.2]

theorem pullState_singleton (sin : ℚ → ℚ) (key : Keycode) (o : Oscillator) (sr : ℕ)
    (h : ¬ ((o.envTick).is_releasing = true ∧ (o.envTick).release_phase ≤ 0)) :
    pullState sin ⟨[(key, o)], sr⟩ = ⟨[(key, advancePhase (o.envTick))], sr⟩ := by
  rw [pullState_eq]
  have hf := oscFinished_eq_false sin o h
  show Synthesizer.mk _ _ = _
  congr 1
  rw [finishedKeys_cons]
  simp only [hf, if_false, finishedKeys_nil]
  show removeKeys [] _ = _
  rw [show ∀ b : List (Keycode × Oscillator), removeKeys [] b = b from fun b => rfl]
  rw [List.map_cons, List.map_nil, tickedOsc_eq_envTick]

theorem pullState_singleton_finished (sin : ℚ → ℚ) (key : Keycode) (o : Oscillator) (sr : ℕ)
    (h : (o.envTick).is_releasing = true ∧ (o.envTick).release_phase ≤ 0) :
    pullState sin ⟨[(key, o)], sr⟩ = ⟨[], sr⟩ := by
  rw [pullState_eq]
  have hf := oscFinished_eq_true sin o h
  show Synthesizer.mk _ _ = _
  congr 1
  rw [finishedKeys_cons]
  simp only [hf, if_true, finishedKeys_nil]
  show removeKeys [key] _ = _
  show List.filter _ _ = _
  rw [List.map_cons, List.map_nil, List.filter_cons]
  simp

theorem pullN_add (sin : ℚ → ℚ) (a b : ℕ) (s : Synthesizer) :
    pullN sin (a + b) s = pullN sin b (pullN sin a s) := by
  induction a generalizing s with
  | zero => rw [Nat.zero_add]; rfl
  | succ a ih =>
    rw [show a + 1 + b = (a + b) + 1 from by omega, pullN_succ, pullN_succ, ih]

/-- The attack run of the 44100 Hz scenario at the level of whole pulls: a
single attacking voice at level `k/441` is still alone in the bank `n` pulls
later, at level `(k+n)/441`, while `k + n ≤ 441`. -/
theorem pullN_singleton_attack (sin : ℚ → ℚ) (key : Keycode) (sr : ℕ) (n k : ℕ)
    (hkn : k + n ≤ 441) (o : Oscillator)
    (hap : o.attack_phase = (k : ℚ) / 441) (hrel : o.is_releasing = false)
    (har : o.attack_rate = 1 / 441) (hrp : o.release_phase = 1)
    (hrr : o.release_rate = 1 / 22050) :
    ∃ o' : Oscillator, pullN sin n ⟨[(key, o)], sr⟩ = ⟨[(key, o')], sr⟩ ∧
      o'.attack_phase = ((k + n : ℕ) : ℚ) / 441 ∧ o'.is_releasing = false ∧
      o'.attack_rate = 1 / 441 ∧ o'.release_phase = 1 ∧ o'.release_rate = 1 / 22050 := by
  induction n generalizing o k with
  | zero =>
    exact ⟨o, rfl, by rw [Nat.add_zero, hap], hrel, har, hrp, hrr⟩
  | succ n ih =>
    have hk : k < 441 := by omega
    have h1 : o.attack_phase < 1 := by
      rw [hap, div_lt_one (by norm_num)]
      exact_mod_cast hk
    have h2 : ¬ o.attack_phase + o.attack_rate > 1 := by
      rw [hap, har, not_lt, div_add_div_same, div_le_one (by norm_num)]
      have : (k : ℚ) + 1 ≤ 441 := by exact_mod_cast Nat.succ_le_of_lt hk
      linarith
    have hfin : ¬ ((o.envTick).is_releasing = true ∧ (o.envTick).release_phase ≤ 0) := by
      rw [envTick_is_releasing, hrel]
      rintro ⟨hc, -⟩
      cases hc
    rw [pullN_succ, pullState_singleton sin key o sr hfin]
    have htick := envTick_of_attack o h1 h2
    obtain ⟨o', ho', f1, f2, f3, f4, f5⟩ := ih (k + 1) (by omega) (advancePhase (o.envTick))
      (by rw [advancePhase_attack_phase, htick]
          show o.attack_phase + o.attack_rate = _
          rw [hap, har, div_add_div_same]
          push_cast
          ring)
      (by rw [advancePhase_is_releasing, envTick_is_releasing, hrel])
      (by rw [advancePhase_attack_rate, envTick_attack_rate, har])
      (by rw [advancePhase_release_phase, htick]
          show o.release_phase = 1
          exact hrp)
      (by rw [advancePhase_release_rate, envTick_release_rate, hrr])
    refine ⟨o', ho', ?_, f2, f3, f4, f5⟩
    rw [f1, show k + 1 + n = k + (n + 1) from by omega]

/-- The release run of the 44100 Hz scenario at the level of whole pulls: a
single fully-attacked releasing voice that has already completed `m` release
ticks survives `n` further pulls while `m + n ≤ 22049`, its level falling to
`1 - (m+n)/22050`. -/
theorem pullN_singleton_release (sin : ℚ → ℚ) (key : Keycode) (sr : ℕ) (n m : ℕ)
    (hmn : m + n ≤ 22049) (o : Oscillator)
    (hap : o.attack_phase = 1) (hrel : o.is_releasing = true)
    (hrp : o.release_phase = 1 - (m : ℚ) / 22050) (hrr : o.release_rate = 1 / 22050) :
    ∃ o' : Oscillator, pullN sin n ⟨[(key, o)], sr⟩ = ⟨[(key, o')], sr⟩ ∧
      o'.attack_phase = 1 ∧ o'.is_releasing = true ∧
      o'.release_phase = 1 - ((m + n : ℕ) : ℚ) / 22050 ∧ o'.release_rate = 1 / 22050 := by
  induction n generalizing o m with
  | zero =>
    exact ⟨o, rfl, hap, hrel, by rw [Nat.add_zero, hrp], hrr⟩
  | succ n ih =>
    have hm : m + 1 ≤ 22049 := by omega
    have hmq : (m : ℚ) + 1 ≤ 22049 := by exact_mod_cast hm
    have h1 : ¬ o.attack_phase < 1 := by rw [hap]; norm_num
    have hstep : o.release_phase - o.release_rate = 1 - ((m + 1 : ℕ) : ℚ) / 22050 := by
      rw [hrp, hrr]
      push_cast
      ring
    have h3 : ¬ o.release_phase - o.release_rate ≤ 0 := by
      rw [hstep, sub_nonpos, not_le, div_lt_one (by norm_num)]
      push_cast
      linarith
    have htick := envTick_of_release o h1 hrel h3
    have hfin : ¬ ((o.envTick).is_releasing = true ∧ (o.envTick).release_phase ≤ 0) := by
      rintro ⟨-, hc⟩
      rw [htick] at hc
      exact h3 hc
    rw [pullN_succ, pullState_singleton sin key o sr hfin]
    obtain ⟨o', ho', f1, f2, f3, f4⟩ := ih (m + 1) (by omega) (advancePhase (o.envTick))
      (by rw [advancePhase_attack_phase, htick]
          show o.attack_phase = 1
          exact hap)
      (by rw [advancePhase_is_releasing, envTick_is_releasing, hrel])
      (by rw [advancePhase_release_phase, htick]
          show o.release_phase - o.release_rate = _
          exact hstep)
      (by rw [advancePhase_release_rate, envTick_release_rate, hrr])
    refine ⟨o', ho', f1, f2, ?_, f4⟩
    rw [f3, show m + 1 + n = m + (n + 1) from by omega]

/-- The pull that completes the release: the voice's envelope output is
clamped to exactly `0` and the voice is removed from the bank at the same
pull. -/
theorem pullState_singleton_last (sin : ℚ → ℚ) (key : Keycode) (sr : ℕ) (o : Oscillator)
    (hap : o.attack_phase = 1) (hrel : o.is_releasing = true)
    (hle : o.release_phase - o.release_rate ≤ 0) :
    pullState sin ⟨[(key, o)], sr⟩ = ⟨[], sr⟩ ∧ envOut sin o = 0 := by
  have h1 : ¬ o.attack_phase < 1 := by rw [hap]; norm_num
  have htick := envTick_of_release_done o h1 hrel hle
  constructor
  · apply pullState_singleton_finished
    constructor
    · rw [envTick_is_releasing, hrel]
    · rw [htick]
  · unfold envOut Oscillator.apply_envelope
    rw [if_neg h1, if_pos (by simp [hrel]), if_pos hle]

/-- C8: at 44100 Hz (attack rate `1/441`, release rate `1/22050`), `note_on`
for key `A` followed by exactly 441 pulls leaves the voice's envelope level at
exactly `1`; a subsequent `note_off` followed by `22050` further pulls
removes the voice from the bank, after which the bank stays empty and every
later pull emits `0`. -/
theorem scenario_attack_release (sin : ℚ → ℚ) :
    oscA.attack_rate = 1 / 441 ∧ oscA.release_rate = 1 / 22050 ∧
    ∃ o441 : Oscillator,
      pullN sin 441 ((Synthesizer.new 44100).note_on .A .Sine)
        = ⟨[(Keycode.A, o441)], 44100⟩ ∧
      o441.level = 1 ∧ o441.attack_phase = 1 ∧
      pullN sin 22050 ((Synthesizer.mk [(Keycode.A, o441)] 44100).note_off .A)
        = ⟨[], 44100⟩ ∧
      ∀ j : ℕ,
        pullN sin j
            (pullN sin 22050 ((Synthesizer.mk [(Keycode.A, o441)] 44100).note_off .A))
          = ⟨[], 44100⟩ ∧
        (Synthesizer.next sin []
            (pullN sin j
              (pullN sin 22050
                ((Synthesizer.mk [(Keycode.A, o441)] 44100).note_off .A)))).1 = 0 := by
  refine ⟨oscA_attack_rate, oscA_release_rate, ?_⟩
  have hs1 : (Synthesizer.new 44100).note_on .A .Sine
      = Synthesizer.mk [(Keycode.A, oscA)] 44100 := rfl
  obtain ⟨o441, h441, f1, f2, f3, f4, f5⟩ :=
    pullN_singleton_attack sin .A 44100 441 0 (by omega) oscA
      (by norm_num [oscA, Oscillator.new]) rfl oscA_attack_rate rfl oscA_release_rate
  have hap1 : o441.attack_phase = 1 := by rw [f1]; norm_num
  have hlevel : o441.level = 1 := by
    unfold Oscillator.level
    rw [if_neg (by simp [f2]), if_neg (by rw [hap1]; norm_num)]
  have hsr : o441.start_release = { o441 with is_releasing := true, release_phase := 1 } := by
    unfold Oscillator.start_release
    rw [if_pos ⟨by simp [f2], by simp [hap1]⟩]
  have hoff : (Synthesizer.mk [(Keycode.A, o441)] 44100).note_off .A
      = Synthesizer.mk [(Keycode.A, o441.start_release)] 44100 := rfl
  obtain ⟨oL, hL, g1, g2, g3, g4⟩ :=
    pullN_singleton_release sin .A 44100 22049 0 (by omega) (o441.start_release)
      (by rw [hsr]; exact hap1)
      (by rw [hsr])
      (by rw [hsr]; show (1 : ℚ) = 1 - ((0 : ℕ) : ℚ) / 22050; norm_num)
      (by rw [hsr]; show o441.release_rate = 1 / 22050; exact f5)
  have hlast := pullState_singleton_last sin .A 44100 oL g1 g2
    (by rw [g3, g4]; push_cast; norm_num)
  have h22050 : pullN sin 22050 ((Synthesizer.mk [(Keycode.A, o441)] 44100).note_off .A)
      = ⟨[], 44100⟩ := by
    rw [hoff, show (22050 : ℕ) = 22049 + 1 from rfl, pullN_add, hL, pullN_succ, pullN_zero,
      hlast.1]
  refine ⟨o441, by rw [hs1]; exact h441, hlevel, hap1, h22050, ?_⟩
  intro j
  rw [h22050, pullN_empty]
  exact ⟨rfl, next_out_empty sin 44100⟩

theorem envTickN_add (o : Oscillator) (a b : ℕ) :
    o.envTickN (a + b) = (o.envTickN a).envTickN b := by
  induction a generalizing o with
  | zero => rw [Nat.zero_add]; rfl
  | succ a ih =>
    rw [show a + 1 + b = (a + b) + 1 from by omega, envTickN_succ, envTickN_succ, ih]

/-- Releasing a voice whose attack is still in progress stores the current
attack level in `release_phase` (the continuity intent of `start_release`). -/
theorem start_release_of_mid_attack (o : Oscillator) (h : o.attack_phase < 1) :
    o.start_release = { o with is_releasing := true, release_phase := o.attack_phase } := by
  unfold Oscillator.start_release
  rw [if_neg]
  rintro ⟨-, hge⟩
  exact absurd hge (not_le.mpr h)

/-- C1 (refuting evidence): release the `A` voice mid-attack, at level
`220/441`. `start_release` does store the current level in `release_phase`
(the first half of the claim), but `apply_envelope` checks the attack branch
first, so the emitted per-sample level keeps rising all the way to `1` and
only then drops to the stored level minus one step — a downward jump of more
than one `release_rate` step, exactly the discontinuity the claim (and the
code comment in `start_release`) rules out. -/
theorem mid_attack_release_discontinuity :
    ((oscA.envTickN 220).start_release).is_releasing = true ∧
    ((oscA.envTickN 220).start_release).release_phase = 220 / 441 ∧
    (((oscA.envTickN 220).start_release).envTickN 220).emittedLevel = 1 ∧
    (((oscA.envTickN 220).start_release).envTickN 221).emittedLevel
      = 220 / 441 - 1 / 22050 ∧
    1 - (220 / 441 - 1 / 22050 : ℚ) > ((oscA.envTickN 220).start_release).release_rate := by
  have h1 : oscA.envTickN 220 = { oscA with attack_phase := (220 : ℚ) / 441 } := by
    have h := envTickN_attack_run oscA 220 0 oscA_attack_rate
      (by norm_num [oscA, Oscillator.new]) (by norm_num)
    rw [h]
    have hv : ((0 + 220 : ℕ) : ℚ) / 441 = (220 : ℚ) / 441 := by norm_num
    rw [hv]
  have h2 : (oscA.envTickN 220).start_release
      = { oscA with
            is_releasing := true
            release_phase := (220 : ℚ) / 441
            attack_phase := (220 : ℚ) / 441 } := by
    rw [h1, start_release_of_mid_attack _ (by show (220 : ℚ) / 441 < 1; norm_num)]
  have h3 : ((oscA.envTickN 220).start_release).envTickN 220
      = { oscA with
            is_releasing := true
            release_phase := (220 : ℚ) / 441
            attack_phase := (440 : ℚ) / 441 } := by
    rw [h2]
    have h := envTickN_attack_run
      { oscA with
          is_releasing := true
          release_phase := (220 : ℚ) / 441
          attack_phase := (220 : ℚ) / 441 }
      220 220 oscA_attack_rate (by show (220 : ℚ) / 441 = ((220 : ℕ) : ℚ) / 441; norm_num)
      (by norm_num)
    rw [h]
    have hv : ((220 + 220 : ℕ) : ℚ) / 441 = (440 : ℚ) / 441 := by norm_num
    rw [hv]
  have h4 : ((oscA.envTickN 220).start_release).envTickN 221
      = { oscA with
            is_releasing := true
            release_phase := (220 : ℚ) / 441
            attack_phase := 1 } := by
    rw [show (221 : ℕ) = 220 + 1 from rfl, envTickN_add, h3, envTickN_succ]
    rw [envTick_of_attack _ (by show (440 : ℚ) / 441 < 1; norm_num)
      (by show ¬ (440 : ℚ) / 441 + oscA.attack_rate > 1; rw [oscA_attack_rate]; norm_num)]
    show ({ oscA with
        is_releasing := true
        release_phase := (220 : ℚ) / 441
        attack_phase := (440 : ℚ) / 441 + oscA.attack_rate } : Oscillator).envTickN 0 = _
    rw [show ((440 : ℚ) / 441 + oscA.attack_rate) = 1 by rw [oscA_attack_rate]; norm_num]
    rfl
  refine ⟨by rw [h2], by rw [h2], ?_, ?_, ?_⟩
  · rw [h3, emittedLevel_of_attack _ (by show (440 : ℚ) / 441 < 1; norm_num)
      (by show ¬ (440 : ℚ) / 441 + oscA.attack_rate > 1; rw [oscA_attack_rate]; norm_num)]
    show (440 : ℚ) / 441 + oscA.attack_rate = 1
    rw [oscA_attack_rate]
    norm_num
  · rw [h4, emittedLevel_of_release _ (by norm_num) rfl
      (by show ¬ (220 : ℚ) / 441 - oscA.release_rate ≤ 0; rw [oscA_release_rate]; norm_num)]
    show (220 : ℚ) / 441 - oscA.release_rate = 220 / 441 - 1 / 22050
    rw [oscA_release_rate]
  · rw [h2]
    show 1 - (220 / 441 - 1 / 22050 : ℚ) > oscA.release_rate
    rw [oscA_release_rate]
    norm_num

theorem pullN_succ_right (sin : ℚ → ℚ) (n : ℕ) (s : Synthesizer) :
    pullN sin (n + 1) s = pullState sin (pullN sin n s) := by
  rw [pullN_add sin n 1 s]
  rfl

/-- Releasing a fully-attacked voice starts the release from level `1`,
whether or not it was already releasing. -/
theorem start_release_of_full (o : Oscillator) (hap : o.attack_phase = 1) :
    o.start_release = { o with is_releasing := true, release_phase := 1 } := by
  unfold Oscillator.start_release
  by_cases hc : ¬ o.is_releasing = true ∧ o.attack_phase ≥ 1
  · rw [if_pos hc]
  · rw [if_neg hc, hap]

theorem envOut_of_release_done (sin : ℚ → ℚ) (o : Oscillator)
    (h1 : ¬ o.attack_phase < 1) (hrel : o.is_releasing = true)
    (hle : o.release_phase - o.release_rate ≤ 0) : envOut sin o = 0 := by
  unfold envOut Oscillator.apply_envelope
  rw [if_neg h1, if_pos (by simp [hrel]), if_pos hle]

/-- C6 counterexample: release the `A` voice mid-attack (level `220/441`).
The voice's per-sample envelope gain does not strictly decrease after the
note-off — the next two emitted gains are `221/441` and then `222/441`, both
above the level at the moment of release. -/
theorem release_gain_increases_cex :
    ((oscA.envTickN 220).start_release).is_releasing = true ∧
    ((oscA.envTickN 220).start_release).release_phase = 220 / 441 ∧
    ((oscA.envTickN 220).start_release).emittedLevel = 221 / 441 ∧
    (((oscA.envTickN 220).start_release).envTick).emittedLevel = 222 / 441 ∧
    (220 / 441 : ℚ) < 221 / 441 ∧ (221 / 441 : ℚ) < 222 / 441 := by
  have h1 : oscA.envTickN 220 = { oscA with attack_phase := (220 : ℚ) / 441 } := by
    have h := envTickN_attack_run oscA 220 0 oscA_attack_rate
      (by norm_num [oscA, Oscillator.new]) (by norm_num)
    rw [h]
    have hv : ((0 + 220 : ℕ) : ℚ) / 441 = (220 : ℚ) / 441 := by norm_num
    rw [hv]
  have h2 : (oscA.envTickN 220).start_release
      = { oscA with
            is_releasing := true
            release_phase := (220 : ℚ) / 441
            attack_phase := (220 : ℚ) / 441 } := by
    rw [h1, start_release_of_mid_attack _ (by show (220 : ℚ) / 441 < 1; norm_num)]
  have h3 : ((oscA.envTickN 220).start_release).envTick
      = { oscA with
            is_releasing := true
            release_phase := (220 : ℚ) / 441
            attack_phase := (220 : ℚ) / 441 + oscA.attack_rate } := by
    rw [h2, envTick_of_attack _ (by show (220 : ℚ) / 441 < 1; norm_num)
      (by show ¬ (220 : ℚ) / 441 + oscA.attack_rate > 1; rw [oscA_attack_rate]; norm_num)]
  refine ⟨by rw [h2], by rw [h2], ?_, ?_, by norm_num, by norm_num⟩
  · rw [h2, emittedLevel_of_attack _ (by show (220 : ℚ) / 441 < 1; norm_num)
      (by show ¬ (220 : ℚ) / 441 + oscA.attack_rate > 1; rw [oscA_attack_rate]; norm_num)]
    show (220 : ℚ) / 441 + oscA.attack_rate = 221 / 441
    rw [oscA_attack_rate]
    norm_num
  · rw [h3, emittedLevel_of_attack _
      (by show (220 : ℚ) / 441 + oscA.attack_rate < 1; rw [oscA_attack_rate]; norm_num)
      (by show ¬ (220 : ℚ) / 441 + oscA.attack_rate + oscA.attack_rate > 1
          rw [oscA_attack_rate]; norm_num)]
    show (220 : ℚ) / 441 + oscA.attack_rate + oscA.attack_rate = 222 / 441
    rw [oscA_attack_rate]
    norm_num

/-- C6 (amended): after `note_off` on a *fully attacked* sounding voice
(attack level `1`; mid-attack voices violate the original claim, see the
counterexample), in a bank with unique keys the voice's envelope level is
`1 - k * release_rate` after `k` event-free pulls, strictly decreasing, its
enveloped contribution at pull number `ceil(1/release_rate)` is exactly `0`,
and from that pull on the voice has been removed from the bank. -/
theorem noteOff_silence_convergence (sin : ℚ → ℚ) (s : Synthesizer) (key : Keycode)
    (o : Oscillator) (hnd : NodupKeys s) (hlk : bankLookup key s.oscillators = some o)
    (hap : o.attack_phase = 1) (hrr : 0 < o.release_rate) :
    (∀ k : ℕ, k < ⌈(1 : ℚ) / o.release_rate⌉₊ →
      (bankLookup key (pullN sin k (s.note_off key)).oscillators).map
          Oscillator.release_phase
        = some (1 - (k : ℚ) * o.release_rate)) ∧
    (∀ k1 k2 : ℕ, k1 < k2 → k2 < ⌈(1 : ℚ) / o.release_rate⌉₊ →
      1 - (k2 : ℚ) * o.release_rate < 1 - (k1 : ℚ) * o.release_rate) ∧
    (∀ o' : Oscillator,
      bankLookup key
          (pullN sin (⌈(1 : ℚ) / o.release_rate⌉₊ - 1) (s.note_off key)).oscillators
        = some o' → envOut sin o' = 0) ∧
    (∀ k : ℕ, ⌈(1 : ℚ) / o.release_rate⌉₊ ≤ k →
      bankLookup key (pullN sin k (s.note_off key)).oscillators = none) := by
  have hnd' : NodupKeys (s.note_off key) := by
    rw [NodupKeys]
    show ((s.oscillators.map _).map Prod.fst).Nodup
    rw [keys_map_update key Oscillator.start_release s.oscillators]
    exact hnd
  have hlk' : bankLookup key (s.note_off key).oscillators = some (o.start_release) := by
    show bankLookup key (s.oscillators.map _) = _
    rw [bankLookup_map_update key Oscillator.start_release s.oscillators, hlk]
    rfl
  have hsr := start_release_of_full o hap
  have hKpos : 0 < ⌈(1 : ℚ) / o.release_rate⌉₊ := Nat.ceil_pos.mpr (by positivity)
  have hKmul : 1 ≤ (⌈(1 : ℚ) / o.release_rate⌉₊ : ℚ) * o.release_rate := by
    have h := Nat.le_ceil ((1 : ℚ) / o.release_rate)
    rw [div_le_iff hrr] at h
    exact h
  have main : ∀ k : ℕ, k < ⌈(1 : ℚ) / o.release_rate⌉₊ →
      ∃ ok : Oscillator,
        bankLookup key (pullN sin k (s.note_off key)).oscillators = some ok ∧
        ok.attack_phase = 1 ∧ ok.is_releasing = true ∧
        ok.release_phase = 1 - (k : ℚ) * o.release_rate ∧
        ok.release_rate = o.release_rate := by
    intro k
    induction k with
    | zero =>
      intro _
      refine ⟨o.start_release, hlk', ?_, ?_, ?_, ?_⟩
      · rw [hsr]; exact hap
      · rw [hsr]
      · rw [hsr]
        show (1 : ℚ) = 1 - ((0 : ℕ) : ℚ) * o.release_rate
        push_cast
        ring
      · rw [hsr]
    | succ k ih =>
      intro hk1
      obtain ⟨ok, hcur, kap, krel, krp, krr⟩ := ih (by omega)
      have hndk : NodupKeys (pullN sin k (s.note_off key)) := nodupKeys_pullN sin k _ hnd'
      have hq : ((k : ℚ) + 1) < 1 / o.release_rate := by
        have h := Nat.lt_ceil.mp hk1
        push_cast at h
        exact h
      have hpos : 0 < ok.release_phase - ok.release_rate := by
        rw [krp, krr, lt_div_iff hrr] at *
        nlinarith [hq]
      have h1 : ¬ ok.attack_phase < 1 := by rw [kap]; norm_num
      have htick := envTick_of_release ok h1 krel (by linarith)
      have hnotfin : oscFinished sin ok = false := by
        apply oscFinished_eq_false
        rintro ⟨-, hc⟩
        rw [htick] at hc
        have hc' : ok.release_phase - ok.release_rate ≤ 0 := hc
        linarith
      rw [pullN_succ_right, bankLookup_pullState sin _ key hndk, hcur]
      refine ⟨advancePhase (tickedOsc sin ok), by simp [hnotfin], ?_, ?_, ?_, ?_⟩
      · rw [advancePhase_attack_phase, tickedOsc_eq_envTick, htick]
        exact kap
      · rw [advancePhase_is_releasing, tickedOsc_eq_envTick, envTick_is_releasing]
        exact krel
      · rw [advancePhase_release_phase, tickedOsc_eq_envTick, htick]
        show ok.release_phase - ok.release_rate = 1 - ((k + 1 : ℕ) : ℚ) * o.release_rate
        rw [krp, krr]
        push_cast
        ring
      · rw [advancePhase_release_rate, tickedOsc_eq_envTick, envTick_release_rate]
        exact krr
  have hlastle : ∀ ok : Oscillator,
      ok.release_phase = 1 - ((⌈(1 : ℚ) / o.release_rate⌉₊ - 1 : ℕ) : ℚ) * o.release_rate →
      ok.release_rate = o.release_rate →
      ok.release_phase - ok.release_rate ≤ 0 := by
    intro ok hrpv hrrv
    have hc : ((⌈(1 : ℚ) / o.release_rate⌉₊ - 1 : ℕ) : ℚ)
        = (⌈(1 : ℚ) / o.release_rate⌉₊ : ℚ) - 1 := by
      rw [Nat.cast_sub hKpos]
      norm_num
    rw [hrpv, hrrv, hc]
    nlinarith [hKmul]
  have hdieK : bankLookup key
      (pullN sin ⌈(1 : ℚ) / o.release_rate⌉₊ (s.note_off key)).oscillators = none := by
    obtain ⟨ok, hcur, kap, krel, krp, krr⟩ :=
      main (⌈(1 : ℚ) / o.release_rate⌉₊ - 1) (by omega)
    have h1 : ¬ ok.attack_phase < 1 := by rw [kap]; norm_num
    have hle := hlastle ok krp krr
    have hfin : oscFinished sin ok = true := by
      apply oscFinished_eq_true
      exact ⟨by rw [envTick_is_releasing]; exact krel,
        by rw [envTick_of_release_done ok h1 krel hle]⟩
    rw [show ⌈(1 : ℚ) / o.release_rate⌉₊ = (⌈(1 : ℚ) / o.release_rate⌉₊ - 1) + 1 from
      by omega]
    rw [pullN_succ_right, bankLookup_pullState sin _ key (nodupKeys_pullN sin _ _ hnd'), hcur]
    simp [hfin]
  have hstay : ∀ j : ℕ, bankLookup key
      (pullN sin j (pullN sin ⌈(1 : ℚ) / o.release_rate⌉₊ (s.note_off key))).oscillators
        = none := by
    intro j
    induction j with
    | zero => exact hdieK
    | succ j ih =>
      rw [pullN_succ_right, bankLookup_pullState sin _ key
        (nodupKeys_pullN sin j _ (nodupKeys_pullN sin _ _ hnd')), ih]
  refine ⟨?_, ?_, ?_, ?_⟩
  · intro k hk
    obtain ⟨ok, hcur, -, -, krp, -⟩ := main k hk
    rw [hcur]
    simp [krp]
  · intro k1 k2 h12 hk2
    have hq : (k1 : ℚ) < (k2 : ℚ) := by exact_mod_cast h12
    nlinarith [hrr]
  · intro o' ho'
    obtain ⟨ok, hcur, kap, krel, krp, krr⟩ :=
      main (⌈(1 : ℚ) / o.release_rate⌉₊ - 1) (by omega)
    rw [hcur] at ho'
    obtain rfl : ok = o' := Option.some_injective _ ho'
    exact envOut_of_release_done sin ok (by rw [kap]; norm_num) krel (hlastle ok krp krr)
  · intro k hk
    rw [show k = ⌈(1 : ℚ) / o.release_rate⌉₊ + (k - ⌈(1 : ℚ) / o.release_rate⌉₊) from
      by omega, pullN_add]
    exact hstay _

/-- C6 witness: a fully attacked `A` voice alone in the bank, with the
constant-zero waveform function. -/
theorem noteOff_silence_convergence_witness :
    NodupKeys (Synthesizer.mk [(Keycode.A, { oscA with attack_phase := 1 })] 44100) ∧
    bankLookup .A (Synthesizer.mk [(Keycode.A, { oscA with attack_phase := 1 })]
        44100).oscillators = some { oscA with attack_phase := 1 } ∧
    ({ oscA with attack_phase := 1 } : Oscillator).attack_phase = 1 ∧
    0 < ({ oscA with attack_phase := 1 } : Oscillator).release_rate ∧
    ((∀ k : ℕ, k < ⌈(1 : ℚ) / ({ oscA with attack_phase := 1 } : Oscillator).release_rate⌉₊ →
      (bankLookup .A (pullN (fun _ => 0) k
          ((Synthesizer.mk [(Keycode.A, { oscA with attack_phase := 1 })] 44100).note_off
            .A)).oscillators).map Oscillator.release_phase
        = some (1 - (k : ℚ) * ({ oscA with attack_phase := 1 } : Oscillator).release_rate)) ∧
    (∀ k1 k2 : ℕ, k1 < k2 →
      k2 < ⌈(1 : ℚ) / ({ oscA with attack_phase := 1 } : Oscillator).release_rate⌉₊ →
      1 - (k2 : ℚ) * ({ oscA with attack_phase := 1 } : Oscillator).release_rate
        < 1 - (k1 : ℚ) * ({ oscA with attack_phase := 1 } : Oscillator).release_rate) ∧
    (∀ o' : Oscillator,
      bankLookup .A (pullN (fun _ => 0)
          (⌈(1 : ℚ) / ({ oscA with attack_phase := 1 } : Oscillator).release_rate⌉₊ - 1)
          ((Synthesizer.mk [(Keycode.A, { oscA with attack_phase := 1 })] 44100).note_off
            .A)).oscillators = some o' → envOut (fun _ => 0) o' = 0) ∧
    (∀ k : ℕ, ⌈(1 : ℚ) / ({ oscA with attack_phase := 1 } : Oscillator).release_rate⌉₊ ≤ k →
      bankLookup .A (pullN (fun _ => 0) k
          ((Synthesizer.mk [(Keycode.A, { oscA with attack_phase := 1 })] 44100).note_off
            .A)).oscillators = none)) :=
  ⟨by simp [NodupKeys], rfl, rfl, by norm_num [oscA, Oscillator.new],
   noteOff_silence_convergence (fun _ => 0)
     (Synthesizer.mk [(Keycode.A, { oscA with attack_phase := 1 })] 44100) .A
     { oscA with attack_phase := 1 } (by simp [NodupKeys]) rfl rfl
     (by norm_num [oscA, Oscillator.new])⟩

end Crt
